import Mathlib

/-!
# Consonance / dissonance graph: a model of `src/app/script.js`

The page keeps two DOM lists, `#node-list` and `#link-list`, and three global
variables, `noteCounts`, `noteIDCounter` and `linkIDCounter`.  The development
below embeds that state as a record and the functions `getDissonanceLevel`,
`addLink`, `addNode`, `removeLinks`, `removeNode` and the mouse handlers of
`makeDraggable` as functions on it.

Conventions of the embedding.

* A DOM element is identified by the number `N` of its id attribute
  (`node-N`, `link-N`); the JavaScript comparison `node1 == node2` of two
  elements is the comparison of these numbers.
* Numbers are exact: counts, ids and scale positions are integers, lengths and
  coordinates are rationals.
* The attribute `d="M x1 y1 L x2 y2"` of a link's path is kept as its four
  numbers; writing a number into the template string and reading it back with
  the unary plus gives the number back.
* The geometry of a node (`offsetLeft`, `offsetTop`, `clientWidth`,
  `clientHeight`) is assigned by the rendering engine when the element is
  inserted; it is an argument of `addNode`.  Assigning `style.left` and
  `style.top` sets `offsetLeft` and `offsetTop`.
-/

namespace ConsonanceGraph

/-! ## Pitch classes and the constant maps -/

/-- The twelve keys of `noteCounts` and `noteNumberMap`
(`Cs` is "C#", `Ds` is "D#", and so on). -/
inductive Letter where
  | C | Cs | D | Ds | E | F | Fs | G | Gs | A | As | B
  deriving DecidableEq, Repr

/-- The map `noteNumberMap`: scale position of a pitch class. -/
def noteNumberMap : Letter → Int
  | .C => 0
  | .Cs => 1
  | .D => 2
  | .Ds => 3
  | .E => 4
  | .F => 5
  | .Fs => 6
  | .G => 7
  | .Gs => 8
  | .A => 9
  | .As => 10
  | .B => 11

/-- The object `intervalMap` local to `getDissonanceLevel`; a key that is not
in the object reads as `undefined`, here `none`. -/
def intervalMap (intervalId : Int) : Option Nat :=
  if intervalId = 1 then some 5
  else if intervalId = 2 then some 4
  else if intervalId = 3 then some 3
  else if intervalId = 4 then some 2
  else if intervalId = 5 then some 1
  else if intervalId = 6 then some 6
  else none

/-- The function `getDissonanceLevel(halfSteps)`:
`intervalMap[6 - Math.abs(6 - halfSteps)]`. -/
def getDissonanceLevel (halfSteps : Int) : Option Nat :=
  let intervalId : Int := 6 - ((6 - halfSteps).natAbs : Int)
  intervalMap intervalId

/-- The map `colourMap`, read at the value of `dissonanceLevel`; at
`undefined`, or at a key that is not in the object, it reads `undefined`. -/
def colourMap : Option Nat → Option String
  | some 1 => some "#61abf5"
  | some 2 => some "#75d2ee"
  | some 3 => some "#d1ebe3"
  | some 4 => some "#f6e885"
  | some 5 => some "#f19641"
  | some 6 => some "#e30808"
  | _ => none

/-! ## The state -/

/-- Geometry the rendering engine gives to an element. -/
structure Box where
  offsetLeft : ℚ
  offsetTop : ℚ
  clientWidth : ℚ
  clientHeight : ℚ
  deriving DecidableEq

/-- An element `<li class="node" id="node-N" data-node-letter="...">`. -/
structure Node where
  id : Nat
  nodeLetter : Letter
  offsetLeft : ℚ
  offsetTop : ℚ
  clientWidth : ℚ
  clientHeight : ℚ
  deriving DecidableEq

/-- An element `<li class="link" id="link-N" data-input-node="node-A"
data-output-node="node-B">` with its path.  The field `dissonanceLevel` is the
local variable of that name in `addLink`; the element shows it as the colour
`stroke`.  The fields `x1 y1 x2 y2` are the numbers of the attribute `d`. -/
structure Link where
  id : Nat
  inputNode : Nat
  outputNode : Nat
  dissonanceLevel : Option Nat
  stroke : Option String
  x1 : ℚ
  y1 : ℚ
  x2 : ℚ
  y2 : ℚ
  deriving DecidableEq

/-- The globals `noteCounts`, `noteIDCounter`, `linkIDCounter` and the
children of `#node-list` and `#link-list`, in document order. -/
structure GraphState where
  noteCounts : Letter → Int
  noteIDCounter : Nat
  linkIDCounter : Nat
  nodeList : List Node
  linkList : List Link

/-- The state when the script has been loaded: all counts 0, both counters 1,
both lists empty. -/
def initialState : GraphState where
  noteCounts := fun _ => 0
  noteIDCounter := 1
  linkIDCounter := 1
  nodeList := []
  linkList := []

/-! ## Adding -/

/-- The function `addLink(node1, node2)`. -/
def addLink (s : GraphState) (node1 node2 : Node) : GraphState :=
  if node1.id = node2.id then s
  else
    let halfSteps : Int :=
      ((noteNumberMap node2.nodeLetter - noteNumberMap node1.nodeLetter).natAbs : Int)
    let dissonanceLevel := getDissonanceLevel halfSteps
    let colour := colourMap dissonanceLevel
    let x1 := node1.offsetLeft - 48 + node1.clientWidth / 2
    let y1 := node1.offsetTop - 16 + node1.clientHeight / 2
    let x2 := node2.offsetLeft - 48 + node2.clientWidth / 2
    let y2 := node2.offsetTop - 16 + node2.clientHeight / 2
    let newLink : Link :=
      { id := s.linkIDCounter, inputNode := node1.id, outputNode := node2.id,
        dissonanceLevel := dissonanceLevel, stroke := colour,
        x1 := x1, y1 := y1, x2 := x2, y2 := y2 }
    { s with linkIDCounter := s.linkIDCounter + 1, linkList := s.linkList ++ [newLink] }

/-- The loop `for (i ...) addLink(nodes[i], newNode)` of `addNode`, over the
elements `nodes` still to visit. -/
def addLinks (s : GraphState) (nodes : List Node) (newNode : Node) : GraphState :=
  match nodes with
  | [] => s
  | n :: rest => addLinks (addLink s n newNode) rest newNode

/-- The function `addNode(noteLetter)`; `box` is the geometry of the new
element once it is in the document. -/
def addNode (s : GraphState) (noteLetter : Letter) (box : Box) : GraphState :=
  let s1 : GraphState :=
    { s with noteCounts := Function.update s.noteCounts noteLetter (s.noteCounts noteLetter + 1) }
  if s1.noteCounts noteLetter ≥ 2 then s1
  else
    let newNode : Node :=
      { id := s1.noteIDCounter, nodeLetter := noteLetter,
        offsetLeft := box.offsetLeft, offsetTop := box.offsetTop,
        clientWidth := box.clientWidth, clientHeight := box.clientHeight }
    let s2 : GraphState :=
      { s1 with noteIDCounter := s1.noteIDCounter + 1, nodeList := s1.nodeList ++ [newNode] }
    addLinks s2 s2.nodeList newNode

/-! ## Removing -/

/-- The function `removeLinks(node)`: every element whose `data-input-node` or
`data-output-node` is the id of `node` is removed. -/
def removeLinks (links : List Link) (node : Node) : List Link :=
  links.filter (fun l => !(decide (l.inputNode = node.id) || decide (l.outputNode = node.id)))

/-- The loop of `removeNode` over the elements `nodes` still to visit: at the
first one whose letter is `noteLetter`, its links and the element itself are
removed and the function returns. -/
def removeNodeLoop (nodes : List Node) (links : List Link) (noteLetter : Letter) :
    List Node × List Link :=
  match nodes with
  | [] => ([], links)
  | n :: rest =>
    if n.nodeLetter = noteLetter then (rest, removeLinks links n)
    else
      let r := removeNodeLoop rest links noteLetter
      (n :: r.1, r.2)

/-- The function `removeNode(noteLetter)`. -/
def removeNode (s : GraphState) (noteLetter : Letter) : GraphState :=
  let s1 : GraphState :=
    { s with noteCounts := Function.update s.noteCounts noteLetter (s.noteCounts noteLetter - 1) }
  if s1.noteCounts noteLetter ≥ 1 then s1
  else
    let r := removeNodeLoop s1.nodeList s1.linkList noteLetter
    { s1 with nodeList := r.1, linkList := r.2 }

/-! ## Dragging -/

/-- What the handler `node.onmousedown` of `makeDraggable(node)` leaves in its
closure: the element `node`, the two lists of links selected at that moment
(each link by its id), the last delta and the last cursor sample. -/
structure Drag where
  node : Nat
  inputLinks : List Nat
  outputLinks : List Nat
  dx : ℚ
  dy : ℚ
  mouseX : ℚ
  mouseY : ℚ

/-- The selection `document.querySelectorAll('[data-input-node="node-N"]')`. -/
def selectInputLinks (s : GraphState) (node : Nat) : List Nat :=
  (s.linkList.filter (fun l => decide (l.inputNode = node))).map (fun l => l.id)

/-- The selection `document.querySelectorAll('[data-output-node="node-N"]')`. -/
def selectOutputLinks (s : GraphState) (node : Nat) : List Nat :=
  (s.linkList.filter (fun l => decide (l.outputNode = node))).map (fun l => l.id)

/-- The handler `node.onmousedown` for the element `node`, with the cursor at
`(clientX, clientY)`. -/
def onmousedown (s : GraphState) (node : Nat) (clientX clientY : ℚ) : Drag where
  node := node
  inputLinks := selectInputLinks s node
  outputLinks := selectOutputLinks s node
  dx := 0
  dy := 0
  mouseX := clientX
  mouseY := clientY

/-- Rewriting the attribute `d` of the path found by
`document.getElementById("link-N-path")`: the first link with that id in
document order.  When there is none the lookup is `null` and the handler
throws; that is `none`. -/
def setPath (links : List Link) (linkId : Nat) (f : Link → Link) : Option (List Link) :=
  match links with
  | [] => none
  | l :: rest =>
    if l.id = linkId then some (f l :: rest)
    else (setPath rest linkId f).map (fun r => l :: r)

/-- The new attribute `M ${+x1 + dx} ${+y1 + dy} L ${x2} ${y2}`. -/
def shiftInput (dx dy : ℚ) (l : Link) : Link :=
  { l with x1 := l.x1 + dx, y1 := l.y1 + dy }

/-- The new attribute `M ${x1} ${y1} L ${+x2 + dx} ${+y2 + dy}`. -/
def shiftOutput (dx dy : ℚ) (l : Link) : Link :=
  { l with x2 := l.x2 + dx, y2 := l.y2 + dy }

/-- One of the two loops of `document.onmousemove`, over the selected links
still to visit, each rewritten by `f`. -/
def pathLoop (links : List Link) (ids : List Nat) (f : Link → Link) : Option (List Link) :=
  match ids with
  | [] => some links
  | i :: rest =>
    match setPath links i f with
    | none => none
    | some links1 => pathLoop links1 rest f

/-- The assignments `node.style.left = (node.offsetLeft + dx) + "px"` and
`node.style.top = (node.offsetTop + dy) + "px"`. -/
def setPosition (nodes : List Node) (node : Nat) (dx dy : ℚ) : List Node :=
  nodes.map (fun m =>
    if m.id = node then { m with offsetLeft := m.offsetLeft + dx, offsetTop := m.offsetTop + dy }
    else m)

/-- The body of `document.onmousemove` once `dx` and `dy` are known: the move
step of the element `node` by the delta `(dx, dy)`. -/
def moveStep (s : GraphState) (node : Nat) (inputLinks outputLinks : List Nat) (dx dy : ℚ) :
    Option GraphState :=
  let nodes := setPosition s.nodeList node dx dy
  match pathLoop s.linkList inputLinks (shiftInput dx dy) with
  | none => none
  | some links1 =>
    match pathLoop links1 outputLinks (shiftOutput dx dy) with
    | none => none
    | some links2 => some { s with nodeList := nodes, linkList := links2 }

/-- The handler `document.onmousemove` with the cursor at `(clientX, clientY)`. -/
def onmousemove (s : GraphState) (drag : Drag) (clientX clientY : ℚ) :
    Option (Drag × GraphState) :=
  let dx := clientX - drag.mouseX
  let dy := clientY - drag.mouseY
  let drag1 : Drag := { drag with dx := dx, dy := dy, mouseX := clientX, mouseY := clientY }
  match moveStep s drag1.node drag1.inputLinks drag1.outputLinks dx dy with
  | none => none
  | some s1 => some (drag1, s1)

/-- The move step applied once for each delta of a list, in order, within one
drag session. -/
def moveSteps (s : GraphState) (node : Nat) (inputLinks outputLinks : List Nat) :
    List (ℚ × ℚ) → Option GraphState
  | [] => some s
  | d :: rest =>
    match moveStep s node inputLinks outputLinks d.1 d.2 with
    | none => none
    | some s1 => moveSteps s1 node inputLinks outputLinks rest

/-! ## Reachable states -/

/-- The states reached from the initial one by calls of `addNode` and
`removeNode` in which `removeNode(pc)` is only called while the count of `pc`
is at least 1. -/
inductive Reachable : GraphState → Prop where
  | init : Reachable initialState
  | add {s : GraphState} (h : Reachable s) (pc : Letter) (box : Box) :
      Reachable (addNode s pc box)
  | remove {s : GraphState} (h : Reachable s) (pc : Letter) (hc : 1 ≤ s.noteCounts pc) :
      Reachable (removeNode s pc)

/-- A link joins the nodes with ids `a` and `b`, in either direction. -/
def Link.joins (l : Link) (a b : Nat) : Bool :=
  (decide (l.inputNode = a) && decide (l.outputNode = b)) ||
    (decide (l.inputNode = b) && decide (l.outputNode = a))

/-- The ids of the nodes present. -/
def GraphState.nodeIds (s : GraphState) : List Nat := s.nodeList.map (fun n => n.id)

/-- The ids of the links present. -/
def GraphState.linkIds (s : GraphState) : List Nat := s.linkList.map (fun l => l.id)

/-! ## Closed forms used in the statements -/

/-- The element `newLink` that `addLink(node1, node2)` appends when the link
counter is `k` and the two elements differ. -/
def linkBetween (k : Nat) (node1 node2 : Node) : Link where
  id := k
  inputNode := node1.id
  outputNode := node2.id
  dissonanceLevel :=
    getDissonanceLevel
      ((noteNumberMap node2.nodeLetter - noteNumberMap node1.nodeLetter).natAbs : Int)
  stroke :=
    colourMap (getDissonanceLevel
      ((noteNumberMap node2.nodeLetter - noteNumberMap node1.nodeLetter).natAbs : Int))
  x1 := node1.offsetLeft - 48 + node1.clientWidth / 2
  y1 := node1.offsetTop - 16 + node1.clientHeight / 2
  x2 := node2.offsetLeft - 48 + node2.clientWidth / 2
  y2 := node2.offsetTop - 16 + node2.clientHeight / 2

/-- One link from each node of `nodes` to `newNode`, with the ids `k`, `k+1`,
and so on, in the order of `nodes`. -/
def linksToNew (k : Nat) (nodes : List Node) (newNode : Node) : List Link :=
  match nodes with
  | [] => []
  | n :: rest => linkBetween k n newNode :: linksToNew (k + 1) rest newNode

/-- The element `newNode` that `addNode(noteLetter)` creates in the state `s`. -/
def nodeCreated (s : GraphState) (noteLetter : Letter) (box : Box) : Node where
  id := s.noteIDCounter
  nodeLetter := noteLetter
  offsetLeft := box.offsetLeft
  offsetTop := box.offsetTop
  clientWidth := box.clientWidth
  clientHeight := box.clientHeight

/-- The invariant of the reachable states. -/
structure Inv (s : GraphState) : Prop where
  node_lt : ∀ n ∈ s.nodeList, n.id < s.noteIDCounter
  node_nodup : s.nodeIds.Nodup
  letter_nodup : (s.nodeList.map (fun n => n.nodeLetter)).Nodup
  count_nonneg : ∀ pc, 0 ≤ s.noteCounts pc
  count_pos_iff : ∀ pc, 1 ≤ s.noteCounts pc ↔ ∃ n ∈ s.nodeList, n.nodeLetter = pc
  link_lt : ∀ l ∈ s.linkList, l.id < s.linkIDCounter
  link_nodup : s.linkIds.Nodup
  link_ends : ∀ l ∈ s.linkList,
    l.inputNode ∈ s.nodeIds ∧ l.outputNode ∈ s.nodeIds ∧ l.inputNode ≠ l.outputNode
  link_unique : ∀ a ∈ s.nodeIds, ∀ b ∈ s.nodeIds, a ≠ b →
    s.linkList.countP (fun l => l.joins a b) = 1
  link_level : ∀ l ∈ s.linkList, ∀ na ∈ s.nodeList, ∀ nb ∈ s.nodeList,
    na.id = l.inputNode → nb.id = l.outputNode →
      l.dissonanceLevel = getDissonanceLevel
          ((noteNumberMap nb.nodeLetter - noteNumberMap na.nodeLetter).natAbs : Int) ∧
        l.stroke = colourMap l.dissonanceLevel

/-- The link set is exactly the complete graph over the node set: the ids of
the nodes are pairwise distinct, and so are the ids of the links; any two
distinct nodes present are joined by exactly one link; no link joins a node to
itself; both endpoints of every link are nodes present. -/
structure IsCompleteGraph (s : GraphState) : Prop where
  nodes_distinct : s.nodeIds.Nodup
  links_distinct : s.linkIds.Nodup
  one_link : ∀ a ∈ s.nodeList, ∀ b ∈ s.nodeList, a ≠ b →
    s.linkList.countP (fun l => l.joins a.id b.id) = 1
  no_self_link : ∀ l ∈ s.linkList, l.inputNode ≠ l.outputNode
  no_dangling : ∀ l ∈ s.linkList,
    (∃ a ∈ s.nodeList, a.id = l.inputNode) ∧ (∃ b ∈ s.nodeList, b.id = l.outputNode)

/-! ## Concrete states used as examples -/

/-- A box for the examples: 40 by 40, at (100, 50). -/
def exampleBox : Box := ⟨100, 50, 40, 40⟩

/-- The state after `addNode("C")`. -/
def stateC : GraphState := addNode initialState Letter.C exampleBox

/-- The state after `addNode("C"); addNode("G")`. -/
def stateCG : GraphState := addNode stateC Letter.G exampleBox

/-- The state after `addNode("C"); addNode("F#")`. -/
def stateCFs : GraphState := addNode stateC Letter.Fs exampleBox

/-- The state after `addNode("C"); addNode("C")`: two keys C are selected. -/
def stateCC : GraphState := addNode stateC Letter.C exampleBox

/-- The state after `addNode("C"); addNode("G"); addNode("E")`. -/
def stateCGE : GraphState := addNode stateCG Letter.E exampleBox

/-- Closed form of a loop of `document.onmousemove`: each link is rewritten by
`f` once for every selected id that `getElementById` resolves to it, that is,
for every occurrence of its id among `ids` when no earlier link has that id. -/
def rewriteAll (f : Link → Link) (links : List Link) (ids : List Nat) : List Link :=
  match links with
  | [] => []
  | l :: rest =>
    f^[ids.count l.id] l :: rewriteAll f rest (ids.filter (fun i => decide (i ≠ l.id)))

/-! ## Closed form of `addNode` -/

theorem addLink_of_ne (s : GraphState) (n1 n2 : Node) (h : n1.id ≠ n2.id) :
    addLink s n1 n2 =
      { s with linkIDCounter := s.linkIDCounter + 1,
               linkList := s.linkList ++ [linkBetween s.linkIDCounter n1 n2] } := by
  simp [addLink, h, linkBetween]

theorem addLink_self (s : GraphState) (n : Node) : addLink s n n = s := by
  simp [addLink]

theorem addLinks_of_ne (s : GraphState) (nodes : List Node) (newNode : Node)
    (h : ∀ n ∈ nodes, n.id ≠ newNode.id) :
    addLinks s nodes newNode =
      { s with linkIDCounter := s.linkIDCounter + nodes.length,
               linkList := s.linkList ++ linksToNew s.linkIDCounter nodes newNode } := by
  induction nodes generalizing s with
  | nil => simp [addLinks, linksToNew]
  | cons n rest ih =>
    have hn : n.id ≠ newNode.id := h n (List.mem_cons_self _ _)
    have hrest : ∀ m ∈ rest, m.id ≠ newNode.id := fun m hm => h m (List.mem_cons_of_mem _ hm)
    rw [addLinks, ih _ hrest, addLink_of_ne s n newNode hn]
    simp [linksToNew, Nat.add_assoc, Nat.add_comm 1]

theorem addLinks_append (s : GraphState) (xs ys : List Node) (newNode : Node) :
    addLinks s (xs ++ ys) newNode = addLinks (addLinks s xs newNode) ys newNode := by
  induction xs generalizing s with
  | nil => simp [addLinks]
  | cons n rest ih => simp [addLinks, ih]

/-- Closed form of `addNode` when the incremented count is below 2 and the id
counter is fresh. -/
theorem addNode_fresh (s : GraphState) (pc : Letter) (box : Box)
    (hc : s.noteCounts pc + 1 < 2) (hfresh : ∀ n ∈ s.nodeList, n.id ≠ s.noteIDCounter) :
    addNode s pc box =
      { noteCounts := Function.update s.noteCounts pc (s.noteCounts pc + 1),
        noteIDCounter := s.noteIDCounter + 1,
        linkIDCounter := s.linkIDCounter + s.nodeList.length,
        nodeList := s.nodeList ++ [nodeCreated s pc box],
        linkList := s.linkList ++ linksToNew s.linkIDCounter s.nodeList (nodeCreated s pc box) } := by
  have hc2 : ¬ (s.noteCounts pc + 1 ≥ 2) := by omega
  simp only [addNode, Function.update_same, hc2, if_false]
  rw [addLinks_append, addLinks_of_ne _ s.nodeList _ (fun n hn => hfresh n hn)]
  simp [addLinks, addLink_self, nodeCreated]

/-- Closed form of `addNode` when the pitch class already has a node. -/
theorem addNode_present (s : GraphState) (pc : Letter) (box : Box)
    (hc : 2 ≤ s.noteCounts pc + 1) :
    addNode s pc box =
      { s with noteCounts := Function.update s.noteCounts pc (s.noteCounts pc + 1) } := by
  simp [addNode, hc]

/-! ## The classifier -/

/-- Claim C3, amended: for every integer `halfSteps` with
`1 ≤ halfSteps ≤ 11`, `getDissonanceLevel halfSteps` is a defined level in
`1..6`. -/
theorem getDissonanceLevel_defined (halfSteps : Int) (h1 : 1 ≤ halfSteps) (h11 : halfSteps ≤ 11) :
    ∃ v : Nat, getDissonanceLevel halfSteps = some v ∧ 1 ≤ v ∧ v ≤ 6 := by
  interval_cases halfSteps <;> exact ⟨_, rfl, by decide, by decide⟩

/-- Claim C3, witness of the amended statement at `halfSteps = 7`. -/
theorem getDissonanceLevel_defined_witness :
    ∃ v : Nat, getDissonanceLevel 7 = some v ∧ 1 ≤ v ∧ v ≤ 6 :=
  getDissonanceLevel_defined 7 (by decide) (by decide)

/-- Claim C3, counterexample: `0` lies in `0..11` and `getDissonanceLevel 0` is
`undefined`, so it is not a level in `1..6`. -/
theorem getDissonanceLevel_zero_undefined :
    (0 : Int) ≤ 0 ∧ (0 : Int) ≤ 11 ∧ getDissonanceLevel 0 = none ∧
      ¬ ∃ v : Nat, getDissonanceLevel 0 = some v ∧ 1 ≤ v ∧ v ≤ 6 := by
  refine ⟨by decide, by decide, by decide, ?_⟩
  rintro ⟨v, hv, -⟩
  have h0 : getDissonanceLevel 0 = none := by decide
  rw [h0] at hv
  cases hv

/-- Claim C10: for every integer `k` with `1 ≤ k ≤ 11`,
`getDissonanceLevel k = getDissonanceLevel (12 - k)`. -/
theorem getDissonanceLevel_complement (k : Int) (h1 : 1 ≤ k) (h11 : k ≤ 11) :
    getDissonanceLevel k = getDissonanceLevel (12 - k) := by
  interval_cases k <;> rfl

/-- Claim C10, witness at `k = 7`: the fifth and the fourth have one level. -/
theorem getDissonanceLevel_complement_witness :
    getDissonanceLevel 7 = getDissonanceLevel (12 - 7) :=
  getDissonanceLevel_complement 7 (by decide) (by decide)

/-! ## Closed form of `removeNode` -/

theorem removeNodeLoop_absent (nodes : List Node) (links : List Link) (pc : Letter)
    (h : ∀ n ∈ nodes, n.nodeLetter ≠ pc) :
    removeNodeLoop nodes links pc = (nodes, links) := by
  induction nodes with
  | nil => rfl
  | cons n rest ih =>
    have hn : n.nodeLetter ≠ pc := h n (List.mem_cons_self _ _)
    have hrest : ∀ m ∈ rest, m.nodeLetter ≠ pc := fun m hm => h m (List.mem_cons_of_mem _ hm)
    simp [removeNodeLoop, hn, ih hrest]

theorem removeNodeLoop_present (nodes : List Node) (links : List Link) (pc : Letter) (nd : Node)
    (hnodup : (nodes.map (fun n => n.nodeLetter)).Nodup) (hmem : nd ∈ nodes)
    (hletter : nd.nodeLetter = pc) :
    removeNodeLoop nodes links pc =
      (nodes.filter (fun n => decide (n.nodeLetter ≠ pc)), removeLinks links nd) := by
  induction nodes with
  | nil => cases hmem
  | cons n rest ih =>
    rw [List.map_cons, List.nodup_cons] at hnodup
    obtain ⟨hn, hrest⟩ := hnodup
    by_cases hnp : n.nodeLetter = pc
    · have hnd : nd = n := by
        rcases List.mem_cons.1 hmem with h | h
        · exact h
        · exfalso
          apply hn
          rw [hnp, ← hletter]
          exact List.mem_map_of_mem _ h
      have hfil : rest.filter (fun m => decide (m.nodeLetter ≠ pc)) = rest := by
        apply List.filter_eq_self.2
        intro m hm
        have : m.nodeLetter ≠ pc := by
          intro hmp
          apply hn
          rw [hnp, ← hmp]
          exact List.mem_map_of_mem _ hm
        simpa using this
      subst hnd
      rw [removeNodeLoop, if_pos hnp, List.filter_cons_of_neg (by simp [hnp]), hfil]
    · have hmem2 : nd ∈ rest := by
        rcases List.mem_cons.1 hmem with h | h
        · exact absurd (h ▸ hletter) hnp
        · exact h
      rw [removeNodeLoop, if_neg hnp, ih hrest hmem2, List.filter_cons_of_pos (by simp [hnp])]

/-- Closed form of `removeNode` when the pitch class stays selected. -/
theorem removeNode_keep (s : GraphState) (pc : Letter) (hc : 1 ≤ s.noteCounts pc - 1) :
    removeNode s pc =
      { s with noteCounts := Function.update s.noteCounts pc (s.noteCounts pc - 1) } := by
  simp [removeNode, hc]

/-- Closed form of `removeNode` when the decremented count is below 1 and no
node carries the pitch class. -/
theorem removeNode_absent (s : GraphState) (pc : Letter) (hc : s.noteCounts pc - 1 < 1)
    (h : ∀ n ∈ s.nodeList, n.nodeLetter ≠ pc) :
    removeNode s pc =
      { s with noteCounts := Function.update s.noteCounts pc (s.noteCounts pc - 1) } := by
  have hc2 : ¬ (1 ≤ s.noteCounts pc - 1) := by omega
  simp [removeNode, hc2, removeNodeLoop_absent _ _ _ h]

/-- Closed form of `removeNode` when the decremented count is below 1 and the
node `nd` carries the pitch class. -/
theorem removeNode_last (s : GraphState) (pc : Letter) (nd : Node)
    (hc : s.noteCounts pc - 1 < 1)
    (hnodup : (s.nodeList.map (fun n => n.nodeLetter)).Nodup) (hmem : nd ∈ s.nodeList)
    (hletter : nd.nodeLetter = pc) :
    removeNode s pc =
      { s with noteCounts := Function.update s.noteCounts pc (s.noteCounts pc - 1),
               nodeList := s.nodeList.filter (fun n => decide (n.nodeLetter ≠ pc)),
               linkList := removeLinks s.linkList nd } := by
  have hc2 : ¬ (1 ≤ s.noteCounts pc - 1) := by omega
  simp [removeNode, hc2, removeNodeLoop_present _ _ _ nd hnodup hmem hletter]

/-! ## The links created by `addNode` -/

theorem Link.joins_comm (l : Link) (a b : Nat) : l.joins a b = l.joins b a := by
  simp [Link.joins, Bool.or_comm]

theorem linksToNew_length (k : Nat) (nodes : List Node) (newNode : Node) :
    (linksToNew k nodes newNode).length = nodes.length := by
  induction nodes generalizing k with
  | nil => rfl
  | cons n rest ih => simp [linksToNew, ih]

theorem linksToNew_map_id (k : Nat) (nodes : List Node) (newNode : Node) :
    (linksToNew k nodes newNode).map (fun l => l.id) = List.range' k nodes.length := by
  induction nodes generalizing k with
  | nil => rfl
  | cons n rest ih => simp [linksToNew, ih, linkBetween, List.range'_succ]

theorem linksToNew_map_inputNode (k : Nat) (nodes : List Node) (newNode : Node) :
    (linksToNew k nodes newNode).map (fun l => l.inputNode) = nodes.map (fun n => n.id) := by
  induction nodes generalizing k with
  | nil => rfl
  | cons n rest ih => simp [linksToNew, ih, linkBetween]

theorem mem_linksToNew {k : Nat} {nodes : List Node} {newNode : Node} {l : Link}
    (h : l ∈ linksToNew k nodes newNode) :
    ∃ n ∈ nodes, ∃ i, k ≤ i ∧ i < k + nodes.length ∧ l = linkBetween i n newNode := by
  induction nodes generalizing k with
  | nil => cases h
  | cons n rest ih =>
    rcases List.mem_cons.1 h with h | h
    · exact ⟨n, List.mem_cons_self _ _, k, le_refl _, by simp, h⟩
    · obtain ⟨m, hm, i, hi1, hi2, hl⟩ := ih h
      refine ⟨m, List.mem_cons_of_mem _ hm, i, by omega, ?_, hl⟩
      simp only [List.length_cons]
      omega

theorem countP_joins_linksToNew (k : Nat) (nodes : List Node) (newNode : Node) (a : Nat)
    (ha : a ≠ newNode.id) :
    (linksToNew k nodes newNode).countP (fun l => l.joins a newNode.id) =
      (nodes.map (fun n => n.id)).count a := by
  induction nodes generalizing k with
  | nil => rfl
  | cons n rest ih =>
    rw [linksToNew, List.countP_cons, ih, List.map_cons, List.count_cons]
    have hna : (linkBetween k n newNode).joins a newNode.id = (n.id == a) := by
      by_cases h : n.id = a
      · simp [Link.joins, linkBetween, h]
      · simp [Link.joins, linkBetween, h, ha, Ne.symm ha]
    rw [hna]

/-! ## The invariant holds in every reachable state -/

theorem node_eq_of_id_eq {nodes : List Node} (h : (nodes.map (fun n => n.id)).Nodup)
    {a b : Node} (ha : a ∈ nodes) (hb : b ∈ nodes) (hab : a.id = b.id) : a = b :=
  List.inj_on_of_nodup_map h ha hb hab

theorem node_eq_of_letter_eq {nodes : List Node}
    (h : (nodes.map (fun n => n.nodeLetter)).Nodup)
    {a b : Node} (ha : a ∈ nodes) (hb : b ∈ nodes) (hab : a.nodeLetter = b.nodeLetter) : a = b :=
  List.inj_on_of_nodup_map h ha hb hab

theorem inv_initialState : Inv initialState where
  node_lt := by intro n hn; cases hn
  node_nodup := List.nodup_nil
  letter_nodup := List.nodup_nil
  count_nonneg := by intro pc; exact le_refl _
  count_pos_iff := by
    intro pc
    constructor
    · intro h
      have h0 : (1 : Int) ≤ 0 := h
      omega
    · rintro ⟨n, hn, -⟩; cases hn
  link_lt := by intro l hl; cases hl
  link_nodup := List.nodup_nil
  link_ends := by intro l hl; cases hl
  link_unique := by intro a ha; cases ha
  link_level := by intro l hl; cases hl

theorem inv_counts_only (s : GraphState) (pc : Letter) (v : Int) (h : Inv s)
    (hv : 1 ≤ v) (hnode : ∃ n ∈ s.nodeList, n.nodeLetter = pc) :
    Inv { s with noteCounts := Function.update s.noteCounts pc v } where
  node_lt := h.node_lt
  node_nodup := h.node_nodup
  letter_nodup := h.letter_nodup
  count_nonneg := by
    intro q
    by_cases hq : q = pc
    · subst hq; simp only [Function.update_same]; omega
    · simp only [Function.update_noteq hq]; exact h.count_nonneg q
  count_pos_iff := by
    intro q
    by_cases hq : q = pc
    · subst hq; simp only [Function.update_same]; exact ⟨fun _ => hnode, fun _ => hv⟩
    · simp only [Function.update_noteq hq]; exact h.count_pos_iff q
  link_lt := h.link_lt
  link_nodup := h.link_nodup
  link_ends := h.link_ends
  link_unique := h.link_unique
  link_level := h.link_level

theorem inv_addNode_fresh (s : GraphState) (pc : Letter) (box : Box) (h : Inv s)
    (hc0 : s.noteCounts pc = 0) :
    Inv { noteCounts := Function.update s.noteCounts pc (s.noteCounts pc + 1),
          noteIDCounter := s.noteIDCounter + 1,
          linkIDCounter := s.linkIDCounter + s.nodeList.length,
          nodeList := s.nodeList ++ [nodeCreated s pc box],
          linkList := s.linkList ++
            linksToNew s.linkIDCounter s.nodeList (nodeCreated s pc box) } := by
  have habs : ∀ n ∈ s.nodeList, n.nodeLetter ≠ pc := by
    intro n hn hl
    have := (h.count_pos_iff pc).2 ⟨n, hn, hl⟩
    omega
  have hfresh : ∀ a ∈ s.nodeIds, a ≠ s.noteIDCounter := by
    intro a ha
    obtain ⟨n, hn, rfl⟩ := List.mem_map.1 ha
    exact ne_of_lt (h.node_lt n hn)
  have hnodup : (List.map (fun n => n.id) (s.nodeList ++ [nodeCreated s pc box])).Nodup := by
    rw [List.map_append, List.nodup_append]
    refine ⟨h.node_nodup, List.nodup_singleton _, ?_⟩
    intro a ha hb
    rw [List.map_singleton, List.mem_singleton] at hb
    exact hfresh a ha hb
  have hold : ∀ l ∈ s.linkList, ¬ l.inputNode = s.noteIDCounter ∧
      ¬ l.outputNode = s.noteIDCounter := by
    intro l hl
    obtain ⟨h1, h2, -⟩ := h.link_ends l hl
    exact ⟨hfresh _ h1, hfresh _ h2⟩
  refine
    { node_lt := ?_, node_nodup := hnodup, letter_nodup := ?_, count_nonneg := ?_,
      count_pos_iff := ?_, link_lt := ?_, link_nodup := ?_, link_ends := ?_,
      link_unique := ?_, link_level := ?_ }
  · intro n hn
    rcases List.mem_append.1 hn with hn | hn
    · exact Nat.lt_succ_of_lt (h.node_lt n hn)
    · rw [List.mem_singleton] at hn
      subst hn
      exact Nat.lt_succ_self _
  · show (List.map (fun n => n.nodeLetter) (s.nodeList ++ [nodeCreated s pc box])).Nodup
    rw [List.map_append, List.nodup_append]
    refine ⟨h.letter_nodup, List.nodup_singleton _, ?_⟩
    intro a ha hb
    rw [List.map_singleton, List.mem_singleton] at hb
    obtain ⟨n, hn, rfl⟩ := List.mem_map.1 ha
    exact habs n hn hb
  · intro q
    show 0 ≤ Function.update s.noteCounts pc (s.noteCounts pc + 1) q
    by_cases hq : q = pc
    · subst hq; simp only [Function.update_same]; omega
    · simp only [Function.update_noteq hq]; exact h.count_nonneg q
  · intro q
    show 1 ≤ Function.update s.noteCounts pc (s.noteCounts pc + 1) q ↔
      ∃ n ∈ s.nodeList ++ [nodeCreated s pc box], n.nodeLetter = q
    by_cases hq : q = pc
    · subst hq
      simp only [Function.update_same]
      refine ⟨fun _ => ⟨nodeCreated s q box, by simp, rfl⟩, fun _ => by omega⟩
    · simp only [Function.update_noteq hq]
      rw [h.count_pos_iff q]
      constructor
      · rintro ⟨n, hn, hl⟩
        exact ⟨n, List.mem_append_left _ hn, hl⟩
      · rintro ⟨n, hn, hl⟩
        rcases List.mem_append.1 hn with hn | hn
        · exact ⟨n, hn, hl⟩
        · rw [List.mem_singleton] at hn
          subst hn
          exact absurd hl.symm hq
  · intro l hl
    show l.id < s.linkIDCounter + s.nodeList.length
    rcases List.mem_append.1 hl with hl | hl
    · exact Nat.lt_of_lt_of_le (h.link_lt l hl) (Nat.le_add_right _ _)
    · obtain ⟨n, -, i, -, hi, rfl⟩ := mem_linksToNew hl
      exact hi
  · show (List.map (fun l => l.id)
      (s.linkList ++ linksToNew s.linkIDCounter s.nodeList (nodeCreated s pc box))).Nodup
    rw [List.map_append, List.nodup_append, linksToNew_map_id]
    refine ⟨h.link_nodup, List.nodup_range' _ _, ?_⟩
    intro a ha hb
    obtain ⟨l, hl, rfl⟩ := List.mem_map.1 ha
    have h1 := h.link_lt l hl
    have h2 := (List.mem_range'_1.1 hb).1
    omega
  · intro l hl
    show l.inputNode ∈ List.map (fun n => n.id) (s.nodeList ++ [nodeCreated s pc box]) ∧
      l.outputNode ∈ List.map (fun n => n.id) (s.nodeList ++ [nodeCreated s pc box]) ∧
      l.inputNode ≠ l.outputNode
    rw [List.map_append]
    rcases List.mem_append.1 hl with hl | hl
    · obtain ⟨h1, h2, h3⟩ := h.link_ends l hl
      exact ⟨List.mem_append_left _ h1, List.mem_append_left _ h2, h3⟩
    · obtain ⟨n, hn, i, -, -, rfl⟩ := mem_linksToNew hl
      refine ⟨List.mem_append_left _ (List.mem_map_of_mem _ hn),
        List.mem_append_right _ (by simp [linkBetween]), ?_⟩
      exact ne_of_lt (h.node_lt n hn)
  · intro a ha b hb hab
    show List.countP (fun l => l.joins a b)
      (s.linkList ++ linksToNew s.linkIDCounter s.nodeList (nodeCreated s pc box)) = 1
    have ha2 : a ∈ s.nodeIds ∨ a = s.noteIDCounter := by
      have : a ∈ List.map (fun n => n.id) (s.nodeList ++ [nodeCreated s pc box]) := ha
      rw [List.map_append, List.mem_append] at this
      rcases this with h1 | h1
      · exact Or.inl h1
      · right; simpa [nodeCreated] using h1
    have hb2 : b ∈ s.nodeIds ∨ b = s.noteIDCounter := by
      have : b ∈ List.map (fun n => n.id) (s.nodeList ++ [nodeCreated s pc box]) := hb
      rw [List.map_append, List.mem_append] at this
      rcases this with h1 | h1
      · exact Or.inl h1
      · right; simpa [nodeCreated] using h1
    have hzero : ∀ c : Nat, List.countP (fun l => l.joins c s.noteIDCounter) s.linkList = 0 := by
      intro c
      rw [List.countP_eq_zero]
      intro l hl
      obtain ⟨h1, h2⟩ := hold l hl
      simp [Link.joins, h1, h2]
    have hone : ∀ c ∈ s.nodeIds,
        List.countP (fun l => l.joins c s.noteIDCounter)
          (linksToNew s.linkIDCounter s.nodeList (nodeCreated s pc box)) = 1 := by
      intro c hc
      have := countP_joins_linksToNew s.linkIDCounter s.nodeList (nodeCreated s pc box) c
        (hfresh c hc)
      rw [show (nodeCreated s pc box).id = s.noteIDCounter from rfl] at this
      rw [this]
      exact List.count_eq_one_of_mem h.node_nodup hc
    rw [List.countP_append]
    rcases ha2 with ha2 | ha2 <;> rcases hb2 with hb2 | hb2
    · rw [h.link_unique a ha2 b hb2 hab]
      have : List.countP (fun l => l.joins a b)
          (linksToNew s.linkIDCounter s.nodeList (nodeCreated s pc box)) = 0 := by
        rw [List.countP_eq_zero]
        intro l hl
        obtain ⟨n, hn, i, -, -, rfl⟩ := mem_linksToNew hl
        have h1 : ¬ s.noteIDCounter = a := fun e => hfresh a ha2 e.symm
        have h2 : ¬ s.noteIDCounter = b := fun e => hfresh b hb2 e.symm
        simp [Link.joins, linkBetween, nodeCreated, h1, h2]
      rw [this]
    · subst hb2
      rw [hzero a, hone a ha2]
    · subst ha2
      have e : (fun l : Link => l.joins s.noteIDCounter b) =
          (fun l : Link => l.joins b s.noteIDCounter) := by
        funext l; exact Link.joins_comm l _ _
      rw [e, hzero b, hone b hb2]
    · exact absurd (ha2.trans hb2.symm) hab
  · intro l hl na hna nb hnb hia hib
    rcases List.mem_append.1 hl with hl | hl
    · obtain ⟨h1, h2⟩ := hold l hl
      have hna2 : na ∈ s.nodeList := by
        rcases List.mem_append.1 hna with hna | hna
        · exact hna
        · rw [List.mem_singleton] at hna
          subst hna
          exact absurd hia.symm h1
      have hnb2 : nb ∈ s.nodeList := by
        rcases List.mem_append.1 hnb with hnb | hnb
        · exact hnb
        · rw [List.mem_singleton] at hnb
          subst hnb
          exact absurd hib.symm h2
      exact h.link_level l hl na hna2 nb hnb2 hia hib
    · obtain ⟨n, hn, i, -, -, rfl⟩ := mem_linksToNew hl
      have e1 : na = n :=
        node_eq_of_id_eq hnodup hna (List.mem_append_left _ hn) hia
      have e2 : nb = nodeCreated s pc box :=
        node_eq_of_id_eq hnodup hnb (List.mem_append_right _ (List.mem_singleton_self _)) hib
      subst e1 e2
      exact ⟨rfl, rfl⟩

theorem inv_addNode (s : GraphState) (pc : Letter) (box : Box) (h : Inv s) :
    Inv (addNode s pc box) := by
  by_cases hc : 2 ≤ s.noteCounts pc + 1
  · rw [addNode_present s pc box hc]
    exact inv_counts_only s pc _ h (by omega) ((h.count_pos_iff pc).1 (by omega))
  · have hc0 : s.noteCounts pc = 0 := by
      have := h.count_nonneg pc
      omega
    rw [addNode_fresh s pc box (by omega) (fun n hn => ne_of_lt (h.node_lt n hn))]
    exact inv_addNode_fresh s pc box h hc0

theorem mem_removeLinks {links : List Link} {nd : Node} {l : Link} :
    l ∈ removeLinks links nd ↔ l ∈ links ∧ l.inputNode ≠ nd.id ∧ l.outputNode ≠ nd.id := by
  simp [removeLinks]

theorem mem_filter_letter {nodes : List Node} {pc : Letter} {n : Node} :
    n ∈ nodes.filter (fun n => decide (n.nodeLetter ≠ pc)) ↔ n ∈ nodes ∧ n.nodeLetter ≠ pc := by
  simp

theorem inv_removeNode_last (s : GraphState) (pc : Letter) (nd : Node) (h : Inv s)
    (hc1 : s.noteCounts pc = 1) (hmem : nd ∈ s.nodeList) (hletter : nd.nodeLetter = pc) :
    Inv { s with noteCounts := Function.update s.noteCounts pc (s.noteCounts pc - 1),
                 nodeList := s.nodeList.filter (fun n => decide (n.nodeLetter ≠ pc)),
                 linkList := removeLinks s.linkList nd } := by
  have hother : ∀ n ∈ s.nodeList, n.nodeLetter ≠ pc → n.id ≠ nd.id := by
    intro n hn hl hid
    have := node_eq_of_id_eq h.node_nodup hn hmem hid
    subst this
    exact hl hletter
  have hkeep : ∀ a ∈ s.nodeIds, a ≠ nd.id →
      a ∈ List.map (fun n => n.id) (s.nodeList.filter (fun n => decide (n.nodeLetter ≠ pc))) := by
    intro a ha hne
    obtain ⟨n, hn, rfl⟩ := List.mem_map.1 ha
    refine List.mem_map_of_mem _ (mem_filter_letter.2 ⟨hn, ?_⟩)
    intro hl
    have := node_eq_of_letter_eq h.letter_nodup hn hmem (hl.trans hletter.symm)
    subst this
    exact hne rfl
  have hback : ∀ a ∈ List.map (fun n => n.id)
      (s.nodeList.filter (fun n => decide (n.nodeLetter ≠ pc))), a ∈ s.nodeIds ∧ a ≠ nd.id := by
    intro a ha
    obtain ⟨n, hn, rfl⟩ := List.mem_map.1 ha
    obtain ⟨hn1, hn2⟩ := mem_filter_letter.1 hn
    exact ⟨List.mem_map_of_mem _ hn1, hother n hn1 hn2⟩
  refine
    { node_lt := ?_, node_nodup := ?_, letter_nodup := ?_, count_nonneg := ?_,
      count_pos_iff := ?_, link_lt := ?_, link_nodup := ?_, link_ends := ?_,
      link_unique := ?_, link_level := ?_ }
  · intro n hn
    exact h.node_lt n (mem_filter_letter.1 hn).1
  · exact h.node_nodup.sublist ((List.filter_sublist _).map _)
  · exact h.letter_nodup.sublist ((List.filter_sublist _).map _)
  · intro q
    show 0 ≤ Function.update s.noteCounts pc (s.noteCounts pc - 1) q
    by_cases hq : q = pc
    · subst hq; simp only [Function.update_same]; omega
    · simp only [Function.update_noteq hq]; exact h.count_nonneg q
  · intro q
    show 1 ≤ Function.update s.noteCounts pc (s.noteCounts pc - 1) q ↔
      ∃ n ∈ s.nodeList.filter (fun n => decide (n.nodeLetter ≠ pc)), n.nodeLetter = q
    by_cases hq : q = pc
    · subst hq
      simp only [Function.update_same]
      constructor
      · intro h1; omega
      · rintro ⟨n, hn, hl⟩
        exact absurd hl (mem_filter_letter.1 hn).2
    · simp only [Function.update_noteq hq]
      rw [h.count_pos_iff q]
      constructor
      · rintro ⟨n, hn, hl⟩
        exact ⟨n, mem_filter_letter.2 ⟨hn, fun e => hq (hl.symm.trans e)⟩, hl⟩
      · rintro ⟨n, hn, hl⟩
        exact ⟨n, (mem_filter_letter.1 hn).1, hl⟩
  · intro l hl
    exact h.link_lt l (mem_removeLinks.1 hl).1
  · exact h.link_nodup.sublist ((List.filter_sublist _).map _)
  · intro l hl
    obtain ⟨hl1, hl2, hl3⟩ := mem_removeLinks.1 hl
    obtain ⟨h1, h2, h3⟩ := h.link_ends l hl1
    exact ⟨hkeep _ h1 hl2, hkeep _ h2 hl3, h3⟩
  · intro a ha b hb hab
    obtain ⟨ha1, ha2⟩ := hback a ha
    obtain ⟨hb1, hb2⟩ := hback b hb
    show List.countP (fun l => l.joins a b) (removeLinks s.linkList nd) = 1
    rw [removeLinks, List.countP_filter, ← h.link_unique a ha1 b hb1 hab]
    apply List.countP_congr
    intro l _
    by_cases h1 : l.inputNode = a <;> by_cases h2 : l.outputNode = b <;>
      by_cases h3 : l.inputNode = b <;> by_cases h4 : l.outputNode = a <;>
      simp [Link.joins, h1, h2, h3, h4, ha2, hb2]
  · intro l hl na hna nb hnb hia hib
    exact h.link_level l (mem_removeLinks.1 hl).1 na (mem_filter_letter.1 hna).1 nb
      (mem_filter_letter.1 hnb).1 hia hib

theorem inv_removeNode (s : GraphState) (pc : Letter) (h : Inv s) (hc : 1 ≤ s.noteCounts pc) :
    Inv (removeNode s pc) := by
  obtain ⟨nd, hmem, hletter⟩ := (h.count_pos_iff pc).1 hc
  by_cases hk : 1 ≤ s.noteCounts pc - 1
  · rw [removeNode_keep s pc hk]
    exact inv_counts_only s pc _ h hk ⟨nd, hmem, hletter⟩
  · rw [removeNode_last s pc nd (by omega) h.letter_nodup hmem hletter]
    exact inv_removeNode_last s pc nd h (by omega) hmem hletter

/-- Every reachable state satisfies the invariant. -/
theorem inv_of_reachable {s : GraphState} (h : Reachable s) : Inv s := by
  induction h with
  | init => exact inv_initialState
  | add _ pc box ih => exact inv_addNode _ pc box ih
  | remove _ pc hc ih => exact inv_removeNode _ pc ih hc

/-! ## The claims about reachable states -/

theorem reachable_stateC : Reachable stateC := Reachable.add Reachable.init _ _

theorem reachable_stateCG : Reachable stateCG := Reachable.add reachable_stateC _ _

theorem reachable_stateCFs : Reachable stateCFs := Reachable.add reachable_stateC _ _

theorem reachable_stateCC : Reachable stateCC := Reachable.add reachable_stateC _ _

theorem reachable_stateCGE : Reachable stateCGE := Reachable.add reachable_stateCG _ _

/-- Claim C1: in every state reached from the initial one by calls of
`addNode` and `removeNode`, `removeNode(pc)` being called only while the count
of `pc` is at least 1, the link set is exactly the complete graph over the node
set: any two distinct nodes present are joined by exactly one link, no link
joins a node to itself, and both endpoints of every link are present. -/
theorem links_complete (s : GraphState) (h : Reachable s) : IsCompleteGraph s := by
  have hi := inv_of_reachable h
  refine
    { nodes_distinct := hi.node_nodup, links_distinct := hi.link_nodup, one_link := ?_,
      no_self_link := fun l hl => (hi.link_ends l hl).2.2, no_dangling := ?_ }
  · intro a ha b hb hab
    apply hi.link_unique a.id (List.mem_map_of_mem _ ha) b.id (List.mem_map_of_mem _ hb)
    intro hid
    exact hab (node_eq_of_id_eq hi.node_nodup ha hb hid)
  · intro l hl
    obtain ⟨h1, h2, -⟩ := hi.link_ends l hl
    obtain ⟨a, ha, hae⟩ := List.mem_map.1 h1
    obtain ⟨b, hb, hbe⟩ := List.mem_map.1 h2
    exact ⟨⟨a, ha, hae⟩, ⟨b, hb, hbe⟩⟩

/-- Claim C1, witness: the graph of C, G and E is reachable and complete, and
it has three nodes and three links. -/
theorem links_complete_witness :
    Reachable stateCGE ∧ IsCompleteGraph stateCGE ∧
      stateCGE.nodeList.length = 3 ∧ stateCGE.linkList.length = 3 :=
  ⟨reachable_stateCGE, links_complete stateCGE reachable_stateCGE, by decide, by decide⟩

/-- Claim C2: in every reachable state and for every pitch class `pc`, the
count of `pc` is not negative, exactly one node has the letter `pc` when the
count is at least 1, and no node has it when the count is 0. -/
theorem one_node_per_pitch_class (s : GraphState) (h : Reachable s) (pc : Letter) :
    0 ≤ s.noteCounts pc ∧
      (1 ≤ s.noteCounts pc → s.nodeList.countP (fun n => decide (n.nodeLetter = pc)) = 1) ∧
      (s.noteCounts pc = 0 → s.nodeList.countP (fun n => decide (n.nodeLetter = pc)) = 0) := by
  have hi := inv_of_reachable h
  refine ⟨hi.count_nonneg pc, ?_, ?_⟩
  · intro hc
    obtain ⟨n, hn, hl⟩ := (hi.count_pos_iff pc).1 hc
    have h1 : (s.nodeList.map (fun n => n.nodeLetter)).count pc = 1 :=
      List.count_eq_one_of_mem hi.letter_nodup (List.mem_map.2 ⟨n, hn, hl⟩)
    rw [List.count, List.countP_map] at h1
    rw [← h1]
    apply List.countP_congr
    intro m _
    simp
  · intro hc
    rw [List.countP_eq_zero]
    intro n hn
    have hne : n.nodeLetter ≠ pc := by
      intro hl
      have := (hi.count_pos_iff pc).2 ⟨n, hn, hl⟩
      omega
    simpa using hne

/-- Claim C2, witness: after `addNode("C"); addNode("C")` the count of C is 2
and there is exactly one node C; `removeNode("C")` keeps that node;
a second `removeNode("C")` removes it. -/
theorem one_node_per_pitch_class_witness :
    Reachable stateCC ∧ stateCC.noteCounts Letter.C = 2 ∧
      stateCC.nodeList.countP (fun n => decide (n.nodeLetter = Letter.C)) = 1 ∧
      stateCC.nodeList = [nodeCreated initialState Letter.C exampleBox] ∧
      (removeNode stateCC Letter.C).noteCounts Letter.C = 1 ∧
      (removeNode stateCC Letter.C).nodeList = [nodeCreated initialState Letter.C exampleBox] ∧
      (removeNode (removeNode stateCC Letter.C) Letter.C).noteCounts Letter.C = 0 ∧
      (removeNode (removeNode stateCC Letter.C) Letter.C).nodeList = [] :=
  ⟨reachable_stateCC, by decide,
    (one_node_per_pitch_class stateCC reachable_stateCC Letter.C).2.1 (by decide),
    rfl, by decide, rfl, by decide, rfl⟩

theorem level_of_distinct_letters (a b : Letter) (h : a ≠ b) :
    ∃ v : Nat,
      getDissonanceLevel ((noteNumberMap a - noteNumberMap b).natAbs : Int) = some v ∧
        1 ≤ v ∧ v ≤ 6 := by
  cases a <;> cases b <;>
    first
      | exact absurd rfl h
      | exact ⟨_, rfl, by decide, by decide⟩

theorem halfSteps_comm (a b : Letter) :
    ((noteNumberMap a - noteNumberMap b).natAbs : Int) =
      ((noteNumberMap b - noteNumberMap a).natAbs : Int) := by
  rw [← Int.natAbs_neg, neg_sub]

/-- Claim C4: in every reachable state, a link whose input node has the letter
`a` and whose output node has the letter `b` carries the level
`getDissonanceLevel |noteNumberMap a - noteNumberMap b|`, its colour is the one
of that level, and the level is a defined integer in `1..6`. -/
theorem link_level_correct (s : GraphState) (h : Reachable s) (l : Link) (hl : l ∈ s.linkList)
    (na nb : Node) (hna : na ∈ s.nodeList) (hnb : nb ∈ s.nodeList)
    (hia : na.id = l.inputNode) (hib : nb.id = l.outputNode) :
    l.dissonanceLevel =
        getDissonanceLevel
          ((noteNumberMap na.nodeLetter - noteNumberMap nb.nodeLetter).natAbs : Int) ∧
      l.stroke = colourMap l.dissonanceLevel ∧
      ∃ v : Nat, l.dissonanceLevel = some v ∧ 1 ≤ v ∧ v ≤ 6 := by
  have hi := inv_of_reachable h
  obtain ⟨h1, h2⟩ := hi.link_level l hl na hna nb hnb hia hib
  have hne : na.nodeLetter ≠ nb.nodeLetter := by
    intro hlet
    have e := node_eq_of_letter_eq hi.letter_nodup hna hnb hlet
    subst e
    exact (hi.link_ends l hl).2.2 (hia.symm.trans hib)
  rw [← halfSteps_comm] at h1
  refine ⟨h1, h2, ?_⟩
  rw [h1]
  exact level_of_distinct_letters _ _ hne

/-- Claim C4, witness: after `addNode("C"); addNode("G")` the only link joins
C (0) and G (7) and has level 1. -/
theorem link_level_correct_witness :
    Reachable stateCG ∧
      stateCG.linkList =
        [linkBetween 1 (nodeCreated initialState Letter.C exampleBox)
          (nodeCreated stateC Letter.G exampleBox)] ∧
      (linkBetween 1 (nodeCreated initialState Letter.C exampleBox)
          (nodeCreated stateC Letter.G exampleBox)).dissonanceLevel = getDissonanceLevel 7 ∧
      getDissonanceLevel 7 = some 1 ∧
      ∃ v : Nat, (linkBetween 1 (nodeCreated initialState Letter.C exampleBox)
          (nodeCreated stateC Letter.G exampleBox)).dissonanceLevel = some v ∧ 1 ≤ v ∧ v ≤ 6 :=
  have hw := link_level_correct stateCG reachable_stateCG
    (linkBetween 1 (nodeCreated initialState Letter.C exampleBox)
      (nodeCreated stateC Letter.G exampleBox))
    (List.mem_singleton.2 rfl)
    (nodeCreated initialState Letter.C exampleBox) (nodeCreated stateC Letter.G exampleBox)
    (List.mem_cons_self _ _) (List.mem_cons_of_mem _ (List.mem_singleton.2 rfl)) rfl rfl
  ⟨reachable_stateCG, rfl, hw.1, by decide, hw.2.2⟩

/-- The example of claim C4 for the tritone: after `addNode("C");
addNode("F#")` the only link joins C (0) and F# (6) and has level 6. -/
theorem link_level_tritone :
    stateCFs.linkList.map (fun l => l.dissonanceLevel) = [some 6] := by
  decide

/-- Claim C5, counterexample: in the initial state the count of C is 0, and
`removeNode("C")` returns a state in which that count is -1; the function has
no way to report an error. -/
theorem removeNode_underflow :
    initialState.noteCounts Letter.C = 0 ∧
      (removeNode initialState Letter.C).noteCounts Letter.C = -1 ∧
      (removeNode initialState Letter.C).noteCounts ≠ initialState.noteCounts := by
  refine ⟨by decide, by decide, ?_⟩
  intro h
  have h1 : (removeNode initialState Letter.C).noteCounts Letter.C =
      initialState.noteCounts Letter.C := by rw [h]
  revert h1
  decide

/-- Claim C5, amended: in every reachable state, `removeNode(pc)` for a pitch
class `pc` whose count is 0 returns normally with the count of `pc` set to -1;
the other counts, the node list, the link list and the two id counters are
unchanged. -/
theorem removeNode_of_count_zero (s : GraphState) (h : Reachable s) (pc : Letter)
    (hc : s.noteCounts pc = 0) :
    (removeNode s pc).noteCounts pc = -1 ∧
      (∀ q, q ≠ pc → (removeNode s pc).noteCounts q = s.noteCounts q) ∧
      (removeNode s pc).nodeList = s.nodeList ∧
      (removeNode s pc).linkList = s.linkList ∧
      (removeNode s pc).noteIDCounter = s.noteIDCounter ∧
      (removeNode s pc).linkIDCounter = s.linkIDCounter := by
  have hi := inv_of_reachable h
  have habs : ∀ n ∈ s.nodeList, n.nodeLetter ≠ pc := by
    intro n hn hl
    have := (hi.count_pos_iff pc).2 ⟨n, hn, hl⟩
    omega
  rw [removeNode_absent s pc (by omega) habs]
  refine ⟨?_, ?_, rfl, rfl, rfl, rfl⟩
  · simp only [Function.update_same, hc]
    rfl
  · intro q hq
    simp only [Function.update_noteq hq]

/-- Claim C5, witness of the amended statement: `removeNode("G")` in the state
that holds the single node C. -/
theorem removeNode_of_count_zero_witness :
    Reachable stateC ∧ stateC.noteCounts Letter.G = 0 ∧
      (removeNode stateC Letter.G).noteCounts Letter.G = -1 ∧
      (removeNode stateC Letter.G).nodeList = stateC.nodeList ∧
      (removeNode stateC Letter.G).linkList = stateC.linkList :=
  have hw := removeNode_of_count_zero stateC reachable_stateC Letter.G (by decide)
  ⟨reachable_stateC, by decide, hw.1, hw.2.2.1, hw.2.2.2.1⟩

/-- Claim C6: in every reachable state and for every pitch class `pc` whose
count is 0, `addNode(pc)` appends one node, whose id no node present has, and
appends as many links as there were nodes, the i-th from the i-th node that was
present to the new node; the links that were present stay, unchanged, at the
front of the link list. -/
theorem addNode_adds_links (s : GraphState) (h : Reachable s) (pc : Letter) (box : Box)
    (hc : s.noteCounts pc = 0) :
    ∃ newNode : Node, ∃ newLinks : List Link,
      (addNode s pc box).nodeList = s.nodeList ++ [newNode] ∧
      newNode.nodeLetter = pc ∧
      newNode.id ∉ s.nodeIds ∧
      (addNode s pc box).linkList = s.linkList ++ newLinks ∧
      newLinks.length = s.nodeList.length ∧
      newLinks.map (fun l => l.inputNode) = s.nodeIds ∧
      (∀ l ∈ newLinks, l.outputNode = newNode.id ∧ l.inputNode ≠ newNode.id) ∧
      (∀ l ∈ newLinks, l.id ∉ s.linkIds) := by
  have hi := inv_of_reachable h
  have hfresh : ∀ n ∈ s.nodeList, n.id ≠ s.noteIDCounter :=
    fun n hn => ne_of_lt (hi.node_lt n hn)
  refine ⟨nodeCreated s pc box, linksToNew s.linkIDCounter s.nodeList (nodeCreated s pc box), ?_⟩
  rw [addNode_fresh s pc box (by omega) hfresh]
  refine ⟨rfl, rfl, ?_, rfl, linksToNew_length _ _ _, linksToNew_map_inputNode _ _ _, ?_, ?_⟩
  · intro hmem
    obtain ⟨n, hn, hid⟩ := List.mem_map.1 hmem
    exact hfresh n hn hid
  · intro l hl
    obtain ⟨n, hn, i, -, -, rfl⟩ := mem_linksToNew hl
    exact ⟨rfl, hfresh n hn⟩
  · intro l hl hmem
    obtain ⟨n, hn, i, hi1, -, rfl⟩ := mem_linksToNew hl
    obtain ⟨l0, hl0, hid⟩ := List.mem_map.1 hmem
    have h1 := hi.link_lt l0 hl0
    have h2 : l0.id = i := hid
    omega

/-- Claim C6, witness: adding E to the graph of C and G creates the links C-E
and G-E, with the ids 2 and 3, and keeps the link C-G in front of them. -/
theorem addNode_adds_links_witness :
    Reachable stateCG ∧ stateCG.noteCounts Letter.E = 0 ∧
      (∃ newNode : Node, ∃ newLinks : List Link,
        (addNode stateCG Letter.E exampleBox).nodeList = stateCG.nodeList ++ [newNode] ∧
        newNode.nodeLetter = Letter.E ∧
        newNode.id ∉ stateCG.nodeIds ∧
        (addNode stateCG Letter.E exampleBox).linkList = stateCG.linkList ++ newLinks ∧
        newLinks.length = stateCG.nodeList.length ∧
        newLinks.map (fun l => l.inputNode) = stateCG.nodeIds ∧
        (∀ l ∈ newLinks, l.outputNode = newNode.id ∧ l.inputNode ≠ newNode.id) ∧
        (∀ l ∈ newLinks, l.id ∉ stateCG.linkIds)) ∧
      stateCGE.linkList = stateCG.linkList ++
        [linkBetween 2 (nodeCreated initialState Letter.C exampleBox)
            (nodeCreated stateCG Letter.E exampleBox),
          linkBetween 3 (nodeCreated stateC Letter.G exampleBox)
            (nodeCreated stateCG Letter.E exampleBox)] :=
  ⟨reachable_stateCG, by decide,
    addNode_adds_links stateCG reachable_stateCG Letter.E exampleBox (by decide), rfl⟩

/-- Claim C7: in every reachable state and for every pitch class `pc` whose
count is exactly 1, there is exactly one node `nd` with the letter `pc`, and
`removeNode(pc)` removes that node and exactly the links that have it as input
or output node: the other nodes and the other links stay, unchanged and in
order. -/
theorem removeNode_removes_incident (s : GraphState) (h : Reachable s) (pc : Letter)
    (hc : s.noteCounts pc = 1) :
    ∃ nd ∈ s.nodeList, nd.nodeLetter = pc ∧
      (∀ n ∈ s.nodeList, n.nodeLetter = pc → n = nd) ∧
      (removeNode s pc).nodeList = s.nodeList.filter (fun n => decide (n.id ≠ nd.id)) ∧
      (removeNode s pc).linkList =
        s.linkList.filter (fun l => decide (l.inputNode ≠ nd.id ∧ l.outputNode ≠ nd.id)) ∧
      (removeNode s pc).noteCounts pc = 0 := by
  have hi := inv_of_reachable h
  obtain ⟨nd, hmem, hletter⟩ := (hi.count_pos_iff pc).1 (by omega)
  refine ⟨nd, hmem, hletter, ?_, ?_⟩
  · intro n hn hl
    exact node_eq_of_letter_eq hi.letter_nodup hn hmem (hl.trans hletter.symm)
  rw [removeNode_last s pc nd (by omega) hi.letter_nodup hmem hletter]
  refine ⟨?_, ?_, ?_⟩
  · apply List.filter_congr
    intro n hn
    have hiff : n.nodeLetter ≠ pc ↔ n.id ≠ nd.id := by
      constructor
      · intro hl hid
        have e := node_eq_of_id_eq hi.node_nodup hn hmem hid
        subst e
        exact hl hletter
      · intro hid hl
        have e := node_eq_of_letter_eq hi.letter_nodup hn hmem (hl.trans hletter.symm)
        subst e
        exact hid rfl
    simp only [decide_eq_decide]
    exact hiff
  · show removeLinks s.linkList nd = _
    rw [removeLinks]
    apply List.filter_congr
    intro l _
    by_cases h1 : l.inputNode = nd.id <;> by_cases h2 : l.outputNode = nd.id <;> simp [h1, h2]
  · simp only [Function.update_same, hc]
    rfl

/-- Claim C7, witness: removing G from the graph of C, G and E leaves the nodes
C and E and the single link C-E. -/
theorem removeNode_removes_incident_witness :
    Reachable stateCGE ∧ stateCGE.noteCounts Letter.G = 1 ∧
      (∃ nd ∈ stateCGE.nodeList, nd.nodeLetter = Letter.G ∧
        (∀ n ∈ stateCGE.nodeList, n.nodeLetter = Letter.G → n = nd) ∧
        (removeNode stateCGE Letter.G).nodeList =
          stateCGE.nodeList.filter (fun n => decide (n.id ≠ nd.id)) ∧
        (removeNode stateCGE Letter.G).linkList =
          stateCGE.linkList.filter
            (fun l => decide (l.inputNode ≠ nd.id ∧ l.outputNode ≠ nd.id)) ∧
        (removeNode stateCGE Letter.G).noteCounts Letter.G = 0) ∧
      (removeNode stateCGE Letter.G).nodeList =
        [nodeCreated initialState Letter.C exampleBox,
          nodeCreated stateCG Letter.E exampleBox] ∧
      (removeNode stateCGE Letter.G).linkList =
        [linkBetween 2 (nodeCreated initialState Letter.C exampleBox)
          (nodeCreated stateCG Letter.E exampleBox)] :=
  ⟨reachable_stateCGE, by decide,
    removeNode_removes_incident stateCGE reachable_stateCGE Letter.G (by decide), rfl, rfl⟩

/-! ## Closed form of the move step -/

theorem shiftInput_id (dx dy : ℚ) (l : Link) : (shiftInput dx dy l).id = l.id := rfl

theorem shiftOutput_id (dx dy : ℚ) (l : Link) : (shiftOutput dx dy l).id = l.id := rfl

theorem iterate_id {f : Link → Link} (hf : ∀ l, (f l).id = l.id) (k : Nat) (l : Link) :
    (f^[k] l).id = l.id := by
  induction k generalizing l with
  | zero => rfl
  | succ k ih => rw [Function.iterate_succ_apply, ih, hf]

theorem rewriteAll_nil_ids (f : Link → Link) (links : List Link) :
    rewriteAll f links [] = links := by
  induction links with
  | nil => rfl
  | cons l rest ih => simp [rewriteAll, ih]

theorem rewriteAll_map_id {f : Link → Link} (hf : ∀ l, (f l).id = l.id) (links : List Link)
    (ids : List Nat) :
    (rewriteAll f links ids).map (fun l => l.id) = links.map (fun l => l.id) := by
  induction links generalizing ids with
  | nil => rfl
  | cons l rest ih => simp [rewriteAll, ih, iterate_id hf]

theorem setPath_isSome (f : Link → Link) (links : List Link) (i : Nat)
    (hi : i ∈ links.map (fun l => l.id)) : ∃ r, setPath links i f = some r := by
  induction links with
  | nil => cases hi
  | cons l rest ih =>
    by_cases hl : l.id = i
    · exact ⟨f l :: rest, by simp [setPath, hl]⟩
    · have hi2 : i ∈ rest.map (fun l => l.id) := by
        rcases List.mem_cons.1 hi with h | h
        · exact absurd h.symm hl
        · exact h
      obtain ⟨r, hr⟩ := ih hi2
      exact ⟨l :: r, by simp [setPath, hl, hr]⟩

theorem rewriteAll_setPath {f : Link → Link} (hf : ∀ l, (f l).id = l.id) (links : List Link)
    (i : Nat) (links1 : List Link) (h : setPath links i f = some links1) (rest : List Nat) :
    rewriteAll f links1 rest = rewriteAll f links (i :: rest) := by
  induction links generalizing links1 rest with
  | nil => simp [setPath] at h
  | cons l ls ih =>
    by_cases hl : l.id = i
    · have e : links1 = f l :: ls := by
        simp [setPath, hl] at h
        exact h.symm
      subst e
      subst hl
      simp [rewriteAll, hf, Function.iterate_succ_apply]
    · simp only [setPath, hl, if_false] at h
      cases hr : setPath ls i f with
      | none => simp [hr] at h
      | some r =>
        have e : links1 = l :: r := by
          simp [hr] at h
          exact h.symm
        subst e
        have hne : ¬ i = l.id := fun e => hl e.symm
        have hcnt : List.count l.id (i :: rest) = List.count l.id rest := by
          rw [List.count_cons]
          simp [hne]
        simp [rewriteAll, ih r hr, hne, List.filter_cons, hcnt]

theorem pathLoop_eq {f : Link → Link} (hf : ∀ l, (f l).id = l.id) (links : List Link)
    (ids : List Nat) (hids : ∀ i ∈ ids, i ∈ links.map (fun l => l.id)) :
    pathLoop links ids f = some (rewriteAll f links ids) := by
  induction ids generalizing links with
  | nil => simp [pathLoop, rewriteAll_nil_ids]
  | cons i rest ih =>
    obtain ⟨r, hr⟩ := setPath_isSome f links i (hids i (List.mem_cons_self _ _))
    have hmap : r.map (fun l => l.id) = links.map (fun l => l.id) := by
      have h1 := rewriteAll_setPath hf links i r hr []
      rw [rewriteAll_nil_ids] at h1
      rw [h1, rewriteAll_map_id hf]
    have hrest : ∀ j ∈ rest, j ∈ r.map (fun l => l.id) := by
      intro j hj
      rw [hmap]
      exact hids j (List.mem_cons_of_mem _ hj)
    rw [pathLoop, hr]
    simp only
    rw [ih r hrest, rewriteAll_setPath hf links i r hr rest]

/-- Closed form of the move step when every selected link is in the document. -/
theorem moveStep_eq (s : GraphState) (node : Nat) (inputLinks outputLinks : List Nat) (dx dy : ℚ)
    (hin : ∀ i ∈ inputLinks, i ∈ s.linkIds) (hout : ∀ i ∈ outputLinks, i ∈ s.linkIds) :
    moveStep s node inputLinks outputLinks dx dy =
      some { s with
        nodeList := setPosition s.nodeList node dx dy,
        linkList := rewriteAll (shiftOutput dx dy)
          (rewriteAll (shiftInput dx dy) s.linkList inputLinks) outputLinks } := by
  have h1 := pathLoop_eq (shiftInput_id dx dy) s.linkList inputLinks hin
  have hout2 : ∀ i ∈ outputLinks,
      i ∈ (rewriteAll (shiftInput dx dy) s.linkList inputLinks).map (fun l => l.id) := by
    intro i hi
    rw [rewriteAll_map_id (shiftInput_id dx dy)]
    exact hout i hi
  have h2 := pathLoop_eq (shiftOutput_id dx dy) _ outputLinks hout2
  simp only [moveStep, h1, h2]

theorem selectInputLinks_mem (s : GraphState) (node : Nat) :
    ∀ i ∈ selectInputLinks s node, i ∈ s.linkIds := by
  intro i hi
  obtain ⟨l, hl, rfl⟩ := List.mem_map.1 hi
  exact List.mem_map_of_mem _ (List.mem_filter.1 hl).1

theorem selectOutputLinks_mem (s : GraphState) (node : Nat) :
    ∀ i ∈ selectOutputLinks s node, i ∈ s.linkIds := by
  intro i hi
  obtain ⟨l, hl, rfl⟩ := List.mem_map.1 hi
  exact List.mem_map_of_mem _ (List.mem_filter.1 hl).1

/-! ## Linearity of the move step -/

theorem iterate_shiftInput (dx dy : ℚ) (k : Nat) (l : Link) :
    (shiftInput dx dy)^[k] l = { l with x1 := l.x1 + k * dx, y1 := l.y1 + k * dy } := by
  induction k generalizing l with
  | zero => cases l; simp
  | succ k ih =>
    rw [Function.iterate_succ_apply, ih]
    cases l
    simp only [shiftInput, Link.mk.injEq, true_and, and_true, Nat.cast_succ]
    constructor <;> ring

theorem iterate_shiftOutput (dx dy : ℚ) (k : Nat) (l : Link) :
    (shiftOutput dx dy)^[k] l = { l with x2 := l.x2 + k * dx, y2 := l.y2 + k * dy } := by
  induction k generalizing l with
  | zero => cases l; simp
  | succ k ih =>
    rw [Function.iterate_succ_apply, ih]
    cases l
    simp only [shiftOutput, Link.mk.injEq, true_and, and_true, Nat.cast_succ]
    constructor <;> ring

theorem rewriteAll_zero_input (links : List Link) (ids : List Nat) :
    rewriteAll (shiftInput 0 0) links ids = links := by
  induction links generalizing ids with
  | nil => rfl
  | cons l rest ih => simp [rewriteAll, ih, iterate_shiftInput]

theorem rewriteAll_zero_output (links : List Link) (ids : List Nat) :
    rewriteAll (shiftOutput 0 0) links ids = links := by
  induction links generalizing ids with
  | nil => rfl
  | cons l rest ih => simp [rewriteAll, ih, iterate_shiftOutput]

theorem setPosition_zero (nodes : List Node) (node : Nat) : setPosition nodes node 0 0 = nodes := by
  induction nodes with
  | nil => rfl
  | cons m rest ih =>
    have ih2 : List.map (fun m : Node =>
        if m.id = node then
          { m with offsetLeft := m.offsetLeft + 0, offsetTop := m.offsetTop + 0 }
        else m) rest = rest := ih
    simp only [setPosition, List.map_cons, ih2]
    split_ifs <;> simp

theorem setPosition_add (nodes : List Node) (node : Nat) (dx1 dy1 dx2 dy2 : ℚ) :
    setPosition (setPosition nodes node dx1 dy1) node dx2 dy2 =
      setPosition nodes node (dx1 + dx2) (dy1 + dy2) := by
  simp only [setPosition, List.map_map]
  apply List.map_congr_left
  intro m _
  by_cases hm : m.id = node
  · simp [hm, add_assoc]
  · simp [hm]

theorem rewriteAll_add (links : List Link) (ins outs : List Nat) (dx1 dy1 dx2 dy2 : ℚ) :
    rewriteAll (shiftOutput dx2 dy2)
        (rewriteAll (shiftInput dx2 dy2)
          (rewriteAll (shiftOutput dx1 dy1)
            (rewriteAll (shiftInput dx1 dy1) links ins) outs) ins) outs =
      rewriteAll (shiftOutput (dx1 + dx2) (dy1 + dy2))
        (rewriteAll (shiftInput (dx1 + dx2) (dy1 + dy2)) links ins) outs := by
  induction links generalizing ins outs with
  | nil => rfl
  | cons l rest ih =>
    simp only [rewriteAll, iterate_id (shiftInput_id _ _), iterate_id (shiftOutput_id _ _), ih]
    congr 1
    simp only [iterate_shiftInput, iterate_shiftOutput]
    cases l
    simp only [Link.mk.injEq, true_and]
    refine ⟨?_, ?_, ?_, ?_⟩ <;> ring

/-- Two move steps in a row are one move step by the sum of the deltas. -/
theorem moveStep_moveStep (s s1 : GraphState) (node : Nat) (inputLinks outputLinks : List Nat)
    (dx1 dy1 dx2 dy2 : ℚ)
    (hin : ∀ i ∈ inputLinks, i ∈ s.linkIds) (hout : ∀ i ∈ outputLinks, i ∈ s.linkIds)
    (h1 : moveStep s node inputLinks outputLinks dx1 dy1 = some s1) :
    s1.linkIds = s.linkIds ∧
      moveStep s1 node inputLinks outputLinks dx2 dy2 =
        moveStep s node inputLinks outputLinks (dx1 + dx2) (dy1 + dy2) := by
  rw [moveStep_eq s node inputLinks outputLinks dx1 dy1 hin hout] at h1
  have e := Option.some.inj h1
  subst e
  have hids : GraphState.linkIds
      { s with
        nodeList := setPosition s.nodeList node dx1 dy1,
        linkList := rewriteAll (shiftOutput dx1 dy1)
          (rewriteAll (shiftInput dx1 dy1) s.linkList inputLinks) outputLinks } = s.linkIds := by
    show List.map (fun l => l.id) (rewriteAll (shiftOutput dx1 dy1)
      (rewriteAll (shiftInput dx1 dy1) s.linkList inputLinks) outputLinks) = _
    rw [rewriteAll_map_id (shiftOutput_id _ _), rewriteAll_map_id (shiftInput_id _ _)]
    rfl
  refine ⟨hids, ?_⟩
  rw [moveStep_eq _ node inputLinks outputLinks dx2 dy2 (by rw [hids]; exact hin)
      (by rw [hids]; exact hout),
    moveStep_eq s node inputLinks outputLinks (dx1 + dx2) (dy1 + dy2) hin hout]
  simp only [setPosition_add, rewriteAll_add]

theorem moveSteps_eq (node : Nat) (inputLinks outputLinks : List Nat) (ds : List (ℚ × ℚ))
    (s : GraphState)
    (hin : ∀ i ∈ inputLinks, i ∈ s.linkIds) (hout : ∀ i ∈ outputLinks, i ∈ s.linkIds) :
    moveSteps s node inputLinks outputLinks ds =
      moveStep s node inputLinks outputLinks (ds.map Prod.fst).sum (ds.map Prod.snd).sum := by
  induction ds generalizing s with
  | nil =>
    rw [moveStep_eq s node inputLinks outputLinks _ _ hin hout]
    simp [moveSteps, setPosition_zero, rewriteAll_zero_input, rewriteAll_zero_output]
  | cons d rest ih =>
    have h1 := moveStep_eq s node inputLinks outputLinks d.1 d.2 hin hout
    obtain ⟨hids, h2⟩ := moveStep_moveStep s _ node inputLinks outputLinks d.1 d.2
      (rest.map Prod.fst).sum (rest.map Prod.snd).sum hin hout h1
    rw [moveSteps, h1]
    simp only
    rw [ih _ (by rw [hids]; exact hin) (by rw [hids]; exact hout), h2]
    simp

/-- The handler `document.onmousemove` is the move step by the difference of
the cursor sample and the previous one. -/
theorem onmousemove_eq (s : GraphState) (drag : Drag) (clientX clientY : ℚ) :
    onmousemove s drag clientX clientY =
      (moveStep s drag.node drag.inputLinks drag.outputLinks
          (clientX - drag.mouseX) (clientY - drag.mouseY)).map
        (fun s1 =>
          ({ drag with dx := clientX - drag.mouseX, dy := clientY - drag.mouseY,
                       mouseX := clientX, mouseY := clientY }, s1)) := by
  simp only [onmousemove]
  cases moveStep s drag.node drag.inputLinks drag.outputLinks
    (clientX - drag.mouseX) (clientY - drag.mouseY) <;> rfl

/-- Claim C8: for every state, every node and every list of deltas, the move
step of that node applied once for each delta, in order, with the links
selected when the mouse went down on the node, succeeds and gives the same
state (the same node positions and the same endpoint coordinates on every
link) as the move step applied once with the sum of the deltas. -/
theorem moveSteps_linear (s : GraphState) (node : Nat) (clientX clientY : ℚ)
    (ds : List (ℚ × ℚ)) :
    ∃ s1 : GraphState,
      moveSteps s node (onmousedown s node clientX clientY).inputLinks
        (onmousedown s node clientX clientY).outputLinks ds = some s1 ∧
      moveStep s node (onmousedown s node clientX clientY).inputLinks
        (onmousedown s node clientX clientY).outputLinks
        (ds.map Prod.fst).sum (ds.map Prod.snd).sum = some s1 := by
  have hin := selectInputLinks_mem s node
  have hout := selectOutputLinks_mem s node
  show ∃ s1 : GraphState,
    moveSteps s node (selectInputLinks s node) (selectOutputLinks s node) ds = some s1 ∧
    moveStep s node (selectInputLinks s node) (selectOutputLinks s node)
      (ds.map Prod.fst).sum (ds.map Prod.snd).sum = some s1
  refine ⟨_, ?_, moveStep_eq s node _ _ _ _ hin hout⟩
  rw [moveSteps_eq node _ _ ds s hin hout, moveStep_eq s node _ _ _ _ hin hout]

/-! ## Frame of the move step -/

theorem rewriteAll_of_nodup (f : Link → Link) (links : List Link)
    (hnd : (links.map (fun l => l.id)).Nodup) (ids : List Nat) :
    rewriteAll f links ids = links.map (fun l => f^[ids.count l.id] l) := by
  induction links generalizing ids with
  | nil => rfl
  | cons l rest ih =>
    rw [List.map_cons, List.nodup_cons] at hnd
    obtain ⟨hl, hrest⟩ := hnd
    rw [rewriteAll, ih hrest, List.map_cons]
    congr 1
    apply List.map_congr_left
    intro m hm
    have hne : m.id ≠ l.id := by
      intro e
      apply hl
      rw [← e]
      exact List.mem_map_of_mem _ hm
    rw [List.count_filter (by simpa using hne)]

theorem count_selected (links : List Link) (hnd : (links.map (fun l => l.id)).Nodup)
    (p : Link → Bool) (l : Link) (hl : l ∈ links) :
    ((links.filter p).map (fun l => l.id)).count l.id = if p l then 1 else 0 := by
  by_cases hp : p l = true
  · rw [if_pos hp]
    apply List.count_eq_one_of_mem
    · exact hnd.sublist ((List.filter_sublist _).map _)
    · exact List.mem_map_of_mem _ (List.mem_filter.2 ⟨hl, hp⟩)
  · rw [if_neg hp, List.count_eq_zero]
    intro hmem
    obtain ⟨m, hm, hid⟩ := List.mem_map.1 hmem
    obtain ⟨hm1, hm2⟩ := List.mem_filter.1 hm
    have e : m = l := List.inj_on_of_nodup_map hnd hm1 hl hid
    subst e
    exact hp hm2

/-- Claim C9: in every state whose link ids are pairwise distinct, one move
step of the node `node` by `(dx, dy)`, with the links selected when the mouse
went down on the node, succeeds; on every link it adds `(dx, dy)` to the first
point exactly when `node` is the input node and to the second point exactly
when `node` is the output node, and changes nothing else of the link; it adds
`(dx, dy)` to the position of the node and leaves every other node, the counts
and the id counters as they were. -/
theorem moveStep_frame (s : GraphState) (hs : s.linkIds.Nodup) (node : Nat)
    (clientX clientY dx dy : ℚ) :
    moveStep s node (onmousedown s node clientX clientY).inputLinks
        (onmousedown s node clientX clientY).outputLinks dx dy =
      some { s with
        nodeList := s.nodeList.map (fun m =>
          if m.id = node then
            { m with offsetLeft := m.offsetLeft + dx, offsetTop := m.offsetTop + dy }
          else m),
        linkList := s.linkList.map (fun l =>
          { l with
            x1 := if l.inputNode = node then l.x1 + dx else l.x1,
            y1 := if l.inputNode = node then l.y1 + dy else l.y1,
            x2 := if l.outputNode = node then l.x2 + dx else l.x2,
            y2 := if l.outputNode = node then l.y2 + dy else l.y2 }) } := by
  have hin := selectInputLinks_mem s node
  have hout := selectOutputLinks_mem s node
  show moveStep s node (selectInputLinks s node) (selectOutputLinks s node) dx dy = _
  rw [moveStep_eq s node _ _ dx dy hin hout]
  have hs1 : (s.linkList.map (fun l => l.id)).Nodup := hs
  have hlinks : rewriteAll (shiftOutput dx dy)
      (rewriteAll (shiftInput dx dy) s.linkList (selectInputLinks s node))
      (selectOutputLinks s node) =
      s.linkList.map (fun l =>
          { l with
            x1 := if l.inputNode = node then l.x1 + dx else l.x1,
            y1 := if l.inputNode = node then l.y1 + dy else l.y1,
            x2 := if l.outputNode = node then l.x2 + dx else l.x2,
            y2 := if l.outputNode = node then l.y2 + dy else l.y2 }) := by
    have h1 := rewriteAll_of_nodup (shiftInput dx dy) s.linkList hs1 (selectInputLinks s node)
    have hs2 : ((rewriteAll (shiftInput dx dy) s.linkList (selectInputLinks s node)).map
        (fun l => l.id)).Nodup := by
      rw [rewriteAll_map_id (shiftInput_id dx dy)]
      exact hs1
    rw [rewriteAll_of_nodup _ _ hs2, h1, List.map_map]
    apply List.map_congr_left
    intro l hl
    simp only [Function.comp_apply, iterate_id (shiftInput_id dx dy), selectInputLinks,
      selectOutputLinks, count_selected s.linkList hs1 _ l hl]
    obtain ⟨i, a, b, lvl, col, x1, y1, x2, y2⟩ := l
    by_cases h1 : a = node <;> by_cases h2 : b = node <;>
      simp [h1, h2, shiftInput, shiftOutput]
  rw [hlinks]
  rfl

/-- Claim C9, witness: in the graph of C and G, whose only link has the id 1,
the node C (id 1) is moved by (3, -2). -/
theorem moveStep_frame_witness :
    stateCG.linkIds.Nodup ∧
      moveStep stateCG 1 (onmousedown stateCG 1 0 0).inputLinks
          (onmousedown stateCG 1 0 0).outputLinks 3 (-2) =
        some { stateCG with
          nodeList := stateCG.nodeList.map (fun m =>
            if m.id = 1 then
              { m with offsetLeft := m.offsetLeft + 3, offsetTop := m.offsetTop + (-2) }
            else m),
          linkList := stateCG.linkList.map (fun l =>
            { l with
              x1 := if l.inputNode = 1 then l.x1 + 3 else l.x1,
              y1 := if l.inputNode = 1 then l.y1 + (-2) else l.y1,
              x2 := if l.outputNode = 1 then l.x2 + 3 else l.x2,
              y2 := if l.outputNode = 1 then l.y2 + (-2) else l.y2 }) } :=
  ⟨by decide, moveStep_frame stateCG (by decide) 1 0 0 3 (-2)⟩

/-! ## What the move step keeps

The ids of the links are pairwise distinct in every reachable state, and a
move step keeps the ids and the end nodes of the links, hence that property and
the selections of `onmousedown`. -/

theorem linkIds_nodup_of_reachable {s : GraphState} (h : Reachable s) : s.linkIds.Nodup :=
  (inv_of_reachable h).link_nodup

theorem iterate_inputNode {f : Link → Link} (hf : ∀ l, (f l).inputNode = l.inputNode) (k : Nat)
    (l : Link) : (f^[k] l).inputNode = l.inputNode := by
  induction k generalizing l with
  | zero => rfl
  | succ k ih => rw [Function.iterate_succ_apply, ih, hf]

theorem iterate_outputNode {f : Link → Link} (hf : ∀ l, (f l).outputNode = l.outputNode)
    (k : Nat) (l : Link) : (f^[k] l).outputNode = l.outputNode := by
  induction k generalizing l with
  | zero => rfl
  | succ k ih => rw [Function.iterate_succ_apply, ih, hf]

theorem rewriteAll_ends {f : Link → Link} (hid : ∀ l, (f l).id = l.id)
    (hin : ∀ l, (f l).inputNode = l.inputNode) (hout : ∀ l, (f l).outputNode = l.outputNode)
    (links : List Link) (ids : List Nat) :
    (rewriteAll f links ids).map (fun l => (l.id, l.inputNode, l.outputNode)) =
      links.map (fun l => (l.id, l.inputNode, l.outputNode)) := by
  induction links generalizing ids with
  | nil => rfl
  | cons l rest ih =>
    simp [rewriteAll, ih, iterate_id hid, iterate_inputNode hin, iterate_outputNode hout]

theorem select_input_of_ends (links : List Link) (node : Nat) :
    (links.filter (fun l => decide (l.inputNode = node))).map (fun l => l.id) =
      ((links.map (fun l => (l.id, l.inputNode, l.outputNode))).filter
        (fun t => decide (t.2.1 = node))).map (fun t => t.1) := by
  induction links with
  | nil => rfl
  | cons l rest ih =>
    by_cases h : l.inputNode = node <;> simp [List.filter_cons, h, ih]

theorem select_output_of_ends (links : List Link) (node : Nat) :
    (links.filter (fun l => decide (l.outputNode = node))).map (fun l => l.id) =
      ((links.map (fun l => (l.id, l.inputNode, l.outputNode))).filter
        (fun t => decide (t.2.2 = node))).map (fun t => t.1) := by
  induction links with
  | nil => rfl
  | cons l rest ih =>
    by_cases h : l.outputNode = node <;> simp [List.filter_cons, h, ih]

/-- A move step keeps the ids of the links and what `onmousedown` would select
for any node. -/
theorem moveStep_keeps (s s1 : GraphState) (node : Nat) (inputLinks outputLinks : List Nat)
    (dx dy : ℚ)
    (hin : ∀ i ∈ inputLinks, i ∈ s.linkIds) (hout : ∀ i ∈ outputLinks, i ∈ s.linkIds)
    (h1 : moveStep s node inputLinks outputLinks dx dy = some s1) (other : Nat) :
    s1.linkIds = s.linkIds ∧
      selectInputLinks s1 other = selectInputLinks s other ∧
      selectOutputLinks s1 other = selectOutputLinks s other := by
  rw [moveStep_eq s node inputLinks outputLinks dx dy hin hout] at h1
  have e := Option.some.inj h1
  subst e
  have hends : (rewriteAll (shiftOutput dx dy)
      (rewriteAll (shiftInput dx dy) s.linkList inputLinks) outputLinks).map
        (fun l => (l.id, l.inputNode, l.outputNode)) =
      s.linkList.map (fun l => (l.id, l.inputNode, l.outputNode)) := by
    rw [rewriteAll_ends (shiftOutput_id dx dy) (fun _ => rfl) (fun _ => rfl),
      rewriteAll_ends (shiftInput_id dx dy) (fun _ => rfl) (fun _ => rfl)]
  refine ⟨?_, ?_, ?_⟩
  · show List.map (fun l => l.id) (rewriteAll (shiftOutput dx dy)
      (rewriteAll (shiftInput dx dy) s.linkList inputLinks) outputLinks) = _
    rw [rewriteAll_map_id (shiftOutput_id _ _), rewriteAll_map_id (shiftInput_id _ _)]
    rfl
  · simp only [selectInputLinks]
    rw [select_input_of_ends, hends, ← select_input_of_ends]
  · simp only [selectOutputLinks]
    rw [select_output_of_ends, hends, ← select_output_of_ends]

/-- The colour of a link determines its level: `colourMap` takes six different
values on the levels `1..6`. -/
theorem colourMap_injective (a b : Nat) (ha1 : 1 ≤ a) (ha6 : a ≤ 6) (hb1 : 1 ≤ b) (hb6 : b ≤ 6)
    (h : colourMap (some a) = colourMap (some b)) : a = b := by
  interval_cases a <;> interval_cases b <;> first | rfl | (exfalso; revert h; decide)

end ConsonanceGraph
